import Mathlib

/-!
Shallow embedding of the conformance-checking engine
(`src/conformance/models.py`, `deviations.py`, `checker.py`) of the
sap-workflow-mining repository, together with proofs about it.

Modelling conventions:
* Python `dict` → association list (`List (k × v)`); assignment `d[k] = v`
  replaces the value in place when the key exists (preserving insertion
  order, as Python dicts do) and appends otherwise (`dictSet`).
* Python `set` → duplicate-free list; `s.add(x)` inserts only when absent
  (`setAdd`).  Only membership is observable in the source except where a
  set is iterated; there the embedding fixes insertion order.
* Python floats → `ℚ`.  Every penalty used by the checker is an integer
  multiple of 1/100, so `round(x, 4)` is exact and every rounding mode
  agrees on the values that occur; `round4` uses Mathlib's `round`.
* `datetime` values → `ℕ` via an order embedding, with `datetime.min ↦ 0`.
* Raised exceptions → an `Option String` error component next to the
  resulting state.
-/

namespace SapConformance

/-- `Severity` enum of `deviations.py`: critical, major, minor, info. -/
inductive Severity
  | critical
  | major
  | minor
  | info
  deriving DecidableEq, Repr

/-- The order table used by `Severity.__lt__` (`order = {CRITICAL: 0, …}`). -/
def Severity.rank : Severity → Nat
  | .critical => 0
  | .major => 1
  | .minor => 2
  | .info => 3

/-- `Severity.__lt__`: compare the ranks from the order table. -/
def Severity.pylt (a b : Severity) : Bool :=
  a.rank < b.rank

/-- `DeviationType` enum of `deviations.py`. -/
inductive DeviationType
  | skipped_activity
  | wrong_order
  | unexpected_activity
  | missing_activity
  | duplicate_activity
  | invalid_start
  | invalid_end
  deriving DecidableEq, Repr

/-- `DeviationType.value`: the lowercase string tag of each enum member. -/
def DeviationType.value : DeviationType → String
  | .skipped_activity => "skipped_activity"
  | .wrong_order => "wrong_order"
  | .unexpected_activity => "unexpected_activity"
  | .missing_activity => "missing_activity"
  | .duplicate_activity => "duplicate_activity"
  | .invalid_start => "invalid_start"
  | .invalid_end => "invalid_end"

/-- The `severity` field of a Python `Deviation` is dynamically typed: it is
a `Severity` member whenever the detector built the deviation, but nothing
in Python prevents other values; `ConformanceChecker._calculate_fitness`
explicitly handles that case through `dict.get`'s default.  `other` models
a non-`Severity` value. -/
inductive SevValue
  | sev (s : Severity)
  | other (tag : String)
  deriving DecidableEq, Repr

/-- Sort rank of a severity value; the detector only ever emits `sev` values
(a Python comparison with a non-`Severity` key would raise), the rank of
`other` is arbitrary and never reached from the source paths modelled. -/
def sevValRank : SevValue → Nat
  | .sev s => s.rank
  | .other _ => 4

/-- Values stored in the `details` dict of a `Deviation`. -/
inductive DetailValue
  | str (v : String)
  | int (v : Int)
  | strList (v : List String)
  deriving DecidableEq, Repr

/-- `Deviation` dataclass of `deviations.py`. -/
structure Deviation where
  deviation_type : DeviationType
  severity : SevValue
  activity_name : String
  expected : String
  actual : String
  position : Int := 0
  timestamp : Option Nat := none
  case_id : String := ""
  details : List (String × DetailValue) := []
  recommendation : String := ""
  deriving DecidableEq, Repr

/-- `ConformanceChecker.SEVERITY_PENALTIES`. -/
def SEVERITY_PENALTIES : List (Severity × ℚ) :=
  [(.critical, 0.30), (.major, 0.15), (.minor, 0.05), (.info, 0.01)]

/-- `self.SEVERITY_PENALTIES.get(deviation.severity, 0.1)`: a key that is not
a `Severity` member falls through to the `0.1` default. -/
def severityPenalty : SevValue → ℚ
  | .sev s => (SEVERITY_PENALTIES.lookup s).getD 0.1
  | .other _ => 0.1

/-- `round(x, 4)`.  On the values produced by the fitness computation
(integer multiples of 1/100) all rounding modes agree, so Mathlib's
round-half-up `round` models Python's round-half-even exactly there. -/
def round4 (q : ℚ) : ℚ :=
  (round (q * 10000) : ℚ) / 10000

/-- `ConformanceChecker._calculate_fitness`: start at 1.0, subtract a
penalty per deviation, clamp at 0, round to 4 decimals; an empty deviation
list returns 1.0 directly. -/
def calculate_fitness (deviations : List Deviation) : ℚ :=
  if deviations.isEmpty then 1
  else
    let total_penalty := deviations.foldl (fun acc d => acc + severityPenalty d.severity) 0
    round4 (max 0 (1 - total_penalty))

/-- `ActivityType` enum of `models.py`. -/
inductive ActivityType
  | START
  | END
  | INTERMEDIATE
  | MILESTONE
  | OPTIONAL
  deriving DecidableEq, Repr

/-- `Activity` dataclass of `models.py`; the `sap_event_types` frozenset is
modelled by its member list. -/
structure Activity where
  name : String
  display_name : String
  activity_type : ActivityType
  sap_event_types : List String := []
  description : String := ""
  deriving DecidableEq, Repr

/-- `Activity.matches_event`: with no SAP events defined, match by name,
otherwise by membership in `sap_event_types`. -/
def Activity.matches_event (a : Activity) (event_type : String) : Bool :=
  if a.sap_event_types.isEmpty then event_type == a.name
  else a.sap_event_types.contains event_type

/-- `Transition` dataclass of `models.py`. -/
structure Transition where
  source : Activity
  target : Activity
  is_mandatory : Bool := true
  condition : String := ""
  deriving DecidableEq, Repr

/-- Python dict assignment `d[k] = v`: replace in place when the key exists
(keeping its position, as Python dicts keep first-insertion order),
append otherwise. -/
def dictSet {α : Type} (d : List (String × α)) (k : String) (v : α) : List (String × α) :=
  if (d.lookup k).isSome then d.map (fun p => if p.1 = k then (k, v) else p)
  else d ++ [(k, v)]

/-- Python `set.add` on a set modelled as a duplicate-free list. -/
def setAdd (s : List String) (x : String) : List String :=
  if x ∈ s then s else s ++ [x]

/-- `ProcessModel` of `models.py`: dicts as association lists, sets as
duplicate-free lists (see the conventions at the top of the file). -/
structure ProcessModel where
  name : String := ""
  display_name : String := ""
  description : String := ""
  version : String := "1.0.0"
  activities : List (String × Activity) := []
  transitions : List Transition := []
  start_activities : List String := []
  end_activities : List String := []
  mandatory_activities : List String := []
  outgoing : List (String × List String) := []
  incoming : List (String × List String) := []
  deriving DecidableEq, Repr

/-- `ProcessModel.add_activity`: store the activity, ensure adjacency
entries, update the start/end (if/elif) and mandatory sets. -/
def add_activity (m : ProcessModel) (activity : Activity) : ProcessModel :=
  { m with
    activities := dictSet m.activities activity.name activity
    outgoing :=
      if (m.outgoing.lookup activity.name).isSome then m.outgoing
      else m.outgoing ++ [(activity.name, [])]
    incoming :=
      if (m.incoming.lookup activity.name).isSome then m.incoming
      else m.incoming ++ [(activity.name, [])]
    start_activities :=
      if activity.activity_type = .START then setAdd m.start_activities activity.name
      else m.start_activities
    end_activities :=
      if activity.activity_type = .START then m.end_activities
      else if activity.activity_type = .END then setAdd m.end_activities activity.name
      else m.end_activities
    mandatory_activities :=
      if activity.activity_type ≠ .OPTIONAL then setAdd m.mandatory_activities activity.name
      else m.mandatory_activities }

/-- `self._outgoing[name].add(v)` / `self._incoming[name].add(v)`.  For every
model built through `add_activity` the key is present (that method creates
the adjacency entries); the absent-key branch totalises the operation and is
unreachable from the builder. -/
def adjAdd (adj : List (String × List String)) (k v : String) : List (String × List String) :=
  match adj.lookup k with
  | some s => dictSet adj k (setAdd s v)
  | none => adj ++ [(k, setAdd [] v)]

/-- `ProcessModel.add_transition`, with the raised `ValueError` modelled as
the `Option String` component: the result is the state of the caller's model
after the call (unchanged when the method raises, since it raises before any
mutation).  Message quotes around the activity name are elided. -/
def add_transition (m : ProcessModel) (t : Transition) : ProcessModel × Option String :=
  if (m.activities.lookup t.source.name).isNone then
    (m, some ("Source activity " ++ t.source.name ++ " not in model"))
  else if (m.activities.lookup t.target.name).isNone then
    (m, some ("Target activity " ++ t.target.name ++ " not in model"))
  else
    ({ m with
        transitions := m.transitions ++ [t]
        outgoing := adjAdd m.outgoing t.source.name t.target.name
        incoming := adjAdd m.incoming t.target.name t.source.name }, none)

/-- `ProcessModel.get_activity`. -/
def get_activity (m : ProcessModel) (name : String) : Option Activity :=
  m.activities.lookup name

/-- `ProcessModel.get_activity_for_event`: first activity (in dict insertion
order) matching the event type. -/
def get_activity_for_event (m : ProcessModel) (event_type : String) : Option Activity :=
  (m.activities.map Prod.snd).find? (fun a => a.matches_event event_type)

/-- `ProcessModel.get_valid_previous_activities` (`self._incoming.get(name, set())`). -/
def get_valid_previous_activities (m : ProcessModel) (activity_name : String) : List String :=
  (m.incoming.lookup activity_name).getD []

/-- `ProcessModel.is_start_activity`. -/
def is_start_activity (m : ProcessModel) (activity_name : String) : Bool :=
  m.start_activities.contains activity_name

/-- `ProcessModel.is_end_activity`. -/
def is_end_activity (m : ProcessModel) (activity_name : String) : Bool :=
  m.end_activities.contains activity_name

/-- `ProcessModel.is_mandatory`. -/
def is_mandatory (m : ProcessModel) (activity_name : String) : Bool :=
  m.mandatory_activities.contains activity_name

/-- The mutable `visited` / `result` pair of `get_expected_sequence`. -/
structure VisitState where
  visited : List String := []
  result : List String := []
  deriving DecidableEq, Repr

/-- The inner `visit` closure of `ProcessModel.get_expected_sequence`.  The
Python function recurses without an explicit bound and terminates because
`visited` only grows; the embedding adds a fuel argument, and
`get_expected_sequence` below passes fuel that provably never runs out
(see `visit_spec`), so the `0` case is unreachable there. -/
def visit (m : ProcessModel) : Nat → String → VisitState → VisitState
  | 0, _, st => st
  | fuel + 1, name, st =>
    if name ∈ st.visited then st
    else
      let st1 : VisitState := { st with visited := name :: st.visited }
      let st2 := (get_valid_previous_activities m name).foldl
        (fun s p => if p ∈ m.mandatory_activities then visit m fuel p s else s) st1
      if name ∈ m.mandatory_activities then { st2 with result := st2.result ++ [name] }
      else st2

/-- `ProcessModel.get_expected_sequence`: depth-first visit backward from
every end activity through mandatory predecessors, appending mandatory
activities in post-order. -/
def get_expected_sequence (m : ProcessModel) : List String :=
  (m.end_activities.foldl
    (fun st e => visit m (m.mandatory_activities.length + 2) e st) {}).result

/-- `ProcessModel.get_dependency_order`: the dict
`{name: idx for idx, name in enumerate(sequence)}`. -/
def get_dependency_order (m : ProcessModel) : List (String × Nat) :=
  (get_expected_sequence m).enum.foldl (fun d q => dictSet d q.2 q.1) []

/-- The rule table type of `SeverityScorer`: deviation-type tag → (activity
name or "default" → severity). -/
abbrev SeverityRules := List (String × List (String × Severity))

/-- `DEFAULT_SEVERITY_RULES` of `deviations.py`. -/
def DEFAULT_SEVERITY_RULES : SeverityRules :=
  [ ("skipped_activity",
      [("default", .major), ("OrderCreated", .critical), ("DeliveryCreated", .major),
       ("GoodsIssued", .major), ("InvoiceCreated", .major)]),
    ("wrong_order",
      [("default", .major), ("InvoiceCreated", .critical), ("GoodsIssued", .major),
       ("DeliveryCreated", .major)]),
    ("unexpected_activity", [("default", .minor)]),
    ("missing_activity",
      [("default", .major), ("OrderCreated", .critical), ("InvoiceCreated", .minor)]),
    ("duplicate_activity", [("default", .minor)]),
    ("invalid_start", [("default", .critical)]),
    ("invalid_end", [("default", .minor)]) ]

/-- `SeverityScorer.get_severity`: activity-specific rule, else the type's
default, else `Severity.MAJOR`. -/
def get_severity (rules : SeverityRules) (deviation_type : DeviationType)
    (activity_name : String) : Severity :=
  let type_rules := (rules.lookup deviation_type.value).getD []
  match type_rules.lookup activity_name with
  | some s => s
  | none => (type_rules.lookup "default").getD .major

/-- One record of a trace.  `activity` / `type_val` model the `"activity"` and
`"type"` dict fields (`none`: absent).  `timestamp` is the already-parsed
timestamp: `none` models an absent, `None`, or unparseable value, matching
`DeviationDetector._get_timestamp`'s graceful degradation. -/
structure TraceEvent where
  activity : Option String := none
  type_val : Option String := none
  timestamp : Option Nat := none
  deriving DecidableEq, Repr

/-- `event.get("activity") or event.get("type", "")`: Python `or` falls
through on `None` and on the empty string. -/
def eventActivityString (e : TraceEvent) : String :=
  let a := e.activity.getD ""
  if a ≠ "" then a else e.type_val.getD ""

/-- `_extract_activities` (identical bodies in `DeviationDetector` and
`ConformanceChecker`): skip records with no resolvable activity/type, map
through `get_activity_for_event`, fall back to the raw string. -/
def extract_activities (m : ProcessModel) (trace : List TraceEvent) : List String :=
  trace.foldl (fun acc event =>
    let event_type := eventActivityString event
    if event_type = "" then acc
    else
      match get_activity_for_event m event_type with
      | some a => acc ++ [a.name]
      | none => acc ++ [event_type]) []

/-- `DeviationDetector._get_timestamp`: `None` outside the index range,
otherwise the event's (parsed) timestamp. -/
def get_timestamp (trace : List TraceEvent) (index : Int) : Option Nat :=
  if index < 0 ∨ (trace.length : Int) ≤ index then none
  else (trace.get? index.toNat).bind (fun e => e.timestamp)

/-- `", ".join(l)`. -/
def commaJoin (l : List String) : String :=
  ", ".intercalate l

/-- Python `sorted` on a collection of strings. -/
def sortedStrings (l : List String) : List String :=
  l.insertionSort (fun a b => a ≤ b)

/-- `DeviationDetector._check_start_activity`. -/
def check_start_activity (m : ProcessModel) (rules : SeverityRules)
    (activities : List String) (trace : List TraceEvent) (case_id : String) :
    List Deviation :=
  match activities with
  | [] => []
  | first_activity :: _ =>
    if is_start_activity m first_activity then []
    else if (get_activity m first_activity).isSome then
      [{ deviation_type := .invalid_start
         severity := .sev (get_severity rules .invalid_start first_activity)
         activity_name := first_activity
         expected := "Start with: " ++ commaJoin m.start_activities
         actual := "Started with: " ++ first_activity
         position := 0
         timestamp := get_timestamp trace 0
         case_id := case_id
         recommendation := "Ensure process begins with order creation" }]
    else []

/-- The body of `_check_activity_order`'s loop, as a fold over the activity
sequence carrying `(position, executed, deviations)`. -/
def order_step (m : ProcessModel) (rules : SeverityRules) (dep : List (String × Nat))
    (trace : List TraceEvent) (case_id : String)
    (acc : Nat × List String × List Deviation) (activity_name : String) :
    Nat × List String × List Deviation :=
  let i := acc.1
  let executed := acc.2.1
  let devs := acc.2.2
  match get_activity m activity_name with
  | none => (i + 1, setAdd executed activity_name, devs)
  | some _ =>
    let predecessors := get_valid_previous_activities m activity_name
    let mandatory_predecessors := predecessors.filter (fun p => is_mandatory m p)
    let devs1 :=
      if ¬ mandatory_predecessors.isEmpty ∧
          mandatory_predecessors.all (fun p => ¬ p ∈ executed) ∧
          ¬ is_start_activity m activity_name then
        let skipped := mandatory_predecessors.filter (fun p => ¬ p ∈ executed)
        devs ++
          [{ deviation_type := .skipped_activity
             severity := .sev (get_severity rules .skipped_activity activity_name)
             activity_name := activity_name
             expected := "Requires: " ++ commaJoin (sortedStrings skipped)
             actual := "Prerequisites missing: " ++ commaJoin (sortedStrings skipped)
             position := (i : Int)
             timestamp := get_timestamp trace (i : Int)
             case_id := case_id
             details := [("skipped_activities", .strList skipped)]
             recommendation := "Execute " ++ commaJoin (sortedStrings skipped)
               ++ " before " ++ activity_name }]
      else devs
    let devs2 :=
      match dep.lookup activity_name with
      | none => devs1
      | some expected_pos =>
        executed.foldl (fun ds prev_activity =>
          match dep.lookup prev_activity with
          | none => ds
          | some prev_expected_pos =>
            if expected_pos < prev_expected_pos then
              ds ++
                [{ deviation_type := .wrong_order
                   severity := .sev (get_severity rules .wrong_order activity_name)
                   activity_name := activity_name
                   expected := activity_name ++ " should come after " ++ prev_activity
                   actual := activity_name ++ " executed before " ++ prev_activity
                   position := (i : Int)
                   timestamp := get_timestamp trace (i : Int)
                   case_id := case_id
                   details := [("expected_predecessor", .str prev_activity),
                               ("expected_order", .strList (dep.map Prod.fst))]
                   recommendation := "Execute " ++ prev_activity ++ " before "
                     ++ activity_name }]
            else ds) devs1
    (i + 1, setAdd executed activity_name, devs2)

/-- `DeviationDetector._check_activity_order`: the `executed` set is modelled
as a duplicate-free list in first-execution order (Python iterates it with
unspecified set order; only which deviations appear, not their relative order
at equal severity, is specified behaviour). -/
def check_activity_order (m : ProcessModel) (rules : SeverityRules)
    (dep : List (String × Nat)) (activities : List String)
    (trace : List TraceEvent) (case_id : String) : List Deviation :=
  (activities.foldl (order_step m rules dep trace case_id) (0, [], [])).2.2

/-- `DeviationDetector._check_unexpected_activities`. -/
def check_unexpected_activities (m : ProcessModel) (rules : SeverityRules)
    (activities : List String) (trace : List TraceEvent) (case_id : String) :
    List Deviation :=
  activities.enum.filterMap (fun q =>
    if (get_activity m q.2).isNone then
      some { deviation_type := .unexpected_activity
             severity := .sev (get_severity rules .unexpected_activity q.2)
             activity_name := q.2
             expected := "Activity in process model"
             actual := "Unknown activity: " ++ q.2
             position := (q.1 : Int)
             timestamp := get_timestamp trace (q.1 : Int)
             case_id := case_id
             recommendation := "Review if this activity should be added to model" }
    else none)

/-- `DeviationDetector._check_missing_activities`: `mandatory - executed`,
iterated in the order of the mandatory set; `list(executed)` is modelled as
the deduplicated activity sequence. -/
def check_missing_activities (m : ProcessModel) (rules : SeverityRules)
    (activities : List String) (case_id : String) : List Deviation :=
  (m.mandatory_activities.filter (fun n => ¬ n ∈ activities)).map
    (fun activity_name =>
      { deviation_type := .missing_activity
        severity := .sev (get_severity rules .missing_activity activity_name)
        activity_name := activity_name
        expected := "Mandatory activity: " ++ activity_name
        actual := "Activity not executed"
        position := -1
        timestamp := none
        case_id := case_id
        details := [("executed_activities", .strList activities.dedup)]
        recommendation := "Ensure " ++ activity_name ++ " is executed" })

/-- `DeviationDetector._check_duplicate_activities`: `seen` records the first
position per name; a repeat of a known model activity is flagged, repeats of
unknown names neither flag nor update `seen` (the dict is only written in the
`else` branch). -/
def check_duplicate_activities (m : ProcessModel) (rules : SeverityRules)
    (activities : List String) (trace : List TraceEvent) (case_id : String) :
    List Deviation :=
  (activities.enum.foldl (fun (acc : List (String × Nat) × List Deviation) q =>
    let seen := acc.1
    let devs := acc.2
    match seen.lookup q.2 with
    | some first =>
      if (get_activity m q.2).isSome then
        (seen, devs ++
          [{ deviation_type := .duplicate_activity
             severity := .sev (get_severity rules .duplicate_activity q.2)
             activity_name := q.2
             expected := "Single execution"
             actual := "Duplicate at positions " ++ toString first ++ " and "
               ++ toString q.1
             position := (q.1 : Int)
             timestamp := get_timestamp trace (q.1 : Int)
             case_id := case_id
             details := [("first_occurrence", .int (first : Int))]
             recommendation := "Review if duplicate execution is expected" }])
      else (seen, devs)
    | none => (seen ++ [(q.2, q.1)], devs)) ([], [])).2

/-- `DeviationDetector._check_end_activity`: only evaluated when every
mandatory activity occurred. -/
def check_end_activity (m : ProcessModel) (rules : SeverityRules)
    (activities : List String) (trace : List TraceEvent) (case_id : String) :
    List Deviation :=
  match activities.getLast? with
  | none => []
  | some last_activity =>
    if m.mandatory_activities.all (fun n => n ∈ activities) then
      if is_end_activity m last_activity then []
      else
        [{ deviation_type := .invalid_end
           severity := .sev (get_severity rules .invalid_end last_activity)
           activity_name := last_activity
           expected := "End with: " ++ commaJoin m.end_activities
           actual := "Ended with: " ++ last_activity
           position := ((activities.length - 1 : Nat) : Int)
           timestamp := get_timestamp trace ((trace.length : Int) - 1)
           case_id := case_id
           recommendation := "Ensure process completes with expected end activity" }]
    else []

/-- The sort relation of `deviations.sort(key=lambda d: d.severity)`:
non-decreasing severity rank. -/
def devLE (a b : Deviation) : Prop :=
  sevValRank a.severity ≤ sevValRank b.severity

instance : DecidableRel devLE := fun _ _ => Nat.decLe _ _

instance : IsTotal Deviation devLE := ⟨fun _ _ => Nat.le_total _ _⟩

instance : IsTrans Deviation devLE := ⟨fun _ _ _ => Nat.le_trans⟩

/-- The concatenation of the six detection passes of
`DeviationDetector.detect_deviations`, in source order, before sorting. -/
def detect_deviations_raw (m : ProcessModel) (rules : SeverityRules)
    (trace : List TraceEvent) (case_id : String) : List Deviation :=
  let dep := get_dependency_order m
  let activities := extract_activities m trace
  check_start_activity m rules activities trace case_id
    ++ check_activity_order m rules dep activities trace case_id
    ++ check_unexpected_activities m rules activities trace case_id
    ++ check_missing_activities m rules activities case_id
    ++ check_duplicate_activities m rules activities trace case_id
    ++ check_end_activity m rules activities trace case_id

/-- `DeviationDetector.detect_deviations`: empty activity sequence short
circuits to `[]`; otherwise the concatenated passes are sorted by severity.
Python's `list.sort` is stable on the key; `insertionSort` with `devLE` is
the same stable sort. -/
def detect_deviations (m : ProcessModel) (rules : SeverityRules)
    (trace : List TraceEvent) (case_id : String) : List Deviation :=
  if (extract_activities m trace).isEmpty then []
  else (detect_deviations_raw m rules trace case_id).insertionSort devLE

/-- `CaseConformanceResult` of `checker.py` (the fields set by `check_trace`
and `__post_init__`). -/
structure CaseConformanceResult where
  case_id : String
  is_conformant : Bool
  is_fully_conformant : Bool
  fitness_score : ℚ
  deviations : List Deviation
  executed_activities : List String
  expected_activities : List String
  trace_length : Nat
  conformance_percentage : ℚ
  deriving Repr

/-- `ConformanceChecker.check_trace` (the checker's scorer is its rule
table; `strict_mode` comes from the constructor). -/
def check_trace (m : ProcessModel) (rules : SeverityRules) (strict_mode : Bool)
    (trace : List TraceEvent) (case_id : String) : CaseConformanceResult :=
  let deviations := detect_deviations m rules trace case_id
  let executed := extract_activities m trace
  let expected := get_expected_sequence m
  let fitness := calculate_fitness deviations
  let is_conformant :=
    if strict_mode then deviations.length == 0
    else (deviations.countP (fun d => d.severity == .sev .critical)) == 0
  { case_id := case_id
    is_conformant := is_conformant
    is_fully_conformant := deviations.length == 0
    fitness_score := fitness
    deviations := deviations
    executed_activities := executed
    expected_activities := expected
    trace_length := trace.length
    conformance_percentage := fitness * 100 }

/-- One record of a flat event log (`check_flat_log` input).  `none` in
`case_id` models an absent case-id field (`event.get(case_id_field,
"unknown")`). -/
structure FlatEvent where
  case_id : Option String := none
  activity : Option String := none
  timestamp : Option Nat := none
  deriving DecidableEq, Repr

/-- The case id under which a flat event is grouped. -/
def flatCaseId (e : FlatEvent) : String :=
  e.case_id.getD "unknown"

/-- The per-case event dict built by `check_flat_log`
(`{"activity": …, "timestamp": …}`; extra fields carried along are not
modelled, no claim concerns them). -/
structure CaseEvent where
  activity : Option String
  timestamp : Option Nat
  deriving DecidableEq, Repr

/-- Projection of a flat event to its per-case record. -/
def toCaseEvent (e : FlatEvent) : CaseEvent :=
  { activity := e.activity, timestamp := e.timestamp }

/-- One step of the grouping loop of `check_flat_log`: append the event to
its case's list (creating the case entry at the end on first sight, as the
Python dict does). -/
def groupStep (cases : List (String × List CaseEvent)) (event : FlatEvent) :
    List (String × List CaseEvent) :=
  let cid := flatCaseId event
  match cases.lookup cid with
  | some l => dictSet cases cid (l ++ [toCaseEvent event])
  | none => cases ++ [(cid, [toCaseEvent event])]

/-- The grouping loop of `check_flat_log`: append each event to its case's
list, cases appearing in first-seen order (dict insertion order). -/
def groupByCase (events : List FlatEvent) : List (String × List CaseEvent) :=
  events.foldl groupStep []

/-- The sort key `e.get("timestamp") or datetime.min` (`datetime.min ↦ 0`
under the order embedding of timestamps into `ℕ`). -/
def caseEventKey (e : CaseEvent) : Nat :=
  e.timestamp.getD 0

/-- `case_events.sort(key=lambda e: e.get("timestamp") or datetime.min)`:
a stable sort on `caseEventKey`. -/
def sortCaseEvents (l : List CaseEvent) : List CaseEvent :=
  l.insertionSort (fun a b => caseEventKey a ≤ caseEventKey b)

/-- The grouped and per-case sorted log that `check_flat_log` builds before
delegating to `check_log`. -/
def check_flat_log_cases (events : List FlatEvent) : List (String × List CaseEvent) :=
  (groupByCase events).map (fun p => (p.1, sortCaseEvents p.2))

/-- The sort relation of `sortCaseEvents`. -/
def ceLE (a b : CaseEvent) : Prop :=
  caseEventKey a ≤ caseEventKey b

instance : DecidableRel ceLE := fun _ _ => Nat.decLe _ _

instance : IsTotal CaseEvent ceLE := ⟨fun _ _ => Nat.le_total _ _⟩

instance : IsTrans CaseEvent ceLE := ⟨fun _ _ _ => Nat.le_trans⟩

/-- `p` is a mandatory predecessor of `n`: the edge relation of the
mandatory subgraph that `get_expected_sequence` walks backward. -/
def predEdge (m : ProcessModel) (p n : String) : Prop :=
  p ∈ get_valid_previous_activities m n ∧ p ∈ m.mandatory_activities

/-- The mandatory-activity subgraph of the model is acyclic. -/
def MandAcyclic (m : ProcessModel) : Prop :=
  ∀ x, ¬ Relation.TransGen (predEdge m) x x

/-- Distinct mandatory activities not yet visited: the measure showing the
fuel of `visit` never runs out. -/
def cUM (m : ProcessModel) (st : VisitState) : Nat :=
  (m.mandatory_activities.dedup.filter (fun x => ¬ x ∈ st.visited)).length

/-- Invariant carried through `visit`.  `gray` is the current recursion
stack (deepest frame first): nodes already marked visited whose frame has
not yet returned, hence not yet appended to `result`. -/
structure VisitInv (m : ProcessModel) (st : VisitState) (gray : List String) : Prop where
  nodup : st.result.Nodup
  res_mand : ∀ n ∈ st.result, n ∈ m.mandatory_activities
  res_vis : ∀ n ∈ st.result, n ∈ st.visited
  gray_vis : ∀ g ∈ gray, g ∈ st.visited
  gray_res : ∀ g ∈ gray, g ∉ st.result
  black : ∀ x, x ∈ m.mandatory_activities → x ∈ st.visited → x ∈ st.result ∨ x ∈ gray
  topo : ∀ l1 n l2, st.result = l1 ++ n :: l2 → ∀ p, predEdge m p n →
    p ∈ l1 ∨ (p ∈ gray ∧ Relation.TransGen (predEdge m) n p)

/-- Fold a list of activity declarations into a model, as
`ProcessModelBuilder` does starting from a fresh `ProcessModel`. -/
def buildModel (acts : List Activity) : ProcessModel :=
  acts.foldl add_activity {}

/-- Concrete two-activity model used to instantiate theorems: A (start) and
B (end) with the single transition A → B. -/
def wActA : Activity :=
  { name := "A", display_name := "A", activity_type := .START }

/-- See `wActA`. -/
def wActB : Activity :=
  { name := "B", display_name := "B", activity_type := .END }

/-- See `wActA`. -/
def wT : Transition :=
  { source := wActA, target := wActB }

/-- See `wActA`. -/
def wModel : ProcessModel :=
  (add_transition (buildModel [wActA, wActB]) wT).1

/-- The model after adding `wT` to `wModel` a second time. -/
def wModelDup : ProcessModel :=
  (add_transition wModel wT).1

/-- Concrete flat log: one case, an event carrying the minimum timestamp
followed by an event with no timestamp. -/
def wFlatEvents : List FlatEvent :=
  [ { case_id := some "c", activity := some "A", timestamp := some 0 },
    { case_id := some "c", activity := some "B", timestamp := none } ]

/-- Activity named X whose alias set is non-empty and does not contain X. -/
def wAliased : Activity :=
  { name := "X", display_name := "X", activity_type := .START,
    sap_event_types := ["EVT"] }

/-- Model containing only `wAliased`. -/
def wAliasModel : ProcessModel :=
  buildModel [wAliased]

/-- Activity X declared as START (hence mandatory). -/
def wXStart : Activity :=
  { name := "X", display_name := "X", activity_type := .START }

/-- Activity X re-declared as OPTIONAL. -/
def wXOptional : Activity :=
  { name := "X", display_name := "X", activity_type := .OPTIONAL }

/-- Model in which X is added as START and then re-added as OPTIONAL. -/
def wReaddModel : ProcessModel :=
  buildModel [wXStart, wXOptional]

/-! ### Helper lemmas -/

theorem round_q_mono {a b : ℚ} (h : a ≤ b) : round a ≤ round b := by
  rw [round_eq, round_eq]
  exact Int.floor_mono (by linarith)

theorem round4_mono {a b : ℚ} (h : a ≤ b) : round4 a ≤ round4 b := by
  unfold round4
  have h1 : round (a * 10000) ≤ round (b * 10000) := round_q_mono (by linarith)
  have h2 : ((round (a * 10000) : ℤ) : ℚ) ≤ ((round (b * 10000) : ℤ) : ℚ) := by
    exact_mod_cast h1
  linarith

theorem round4_zero : round4 0 = 0 := by
  simp [round4]

theorem round4_one : round4 1 = 1 := by
  unfold round4
  have h : ((1 : ℚ) * 10000) = ((10000 : ℤ) : ℚ) := by norm_num
  rw [h, round_intCast]
  norm_num

theorem round4_nonneg {q : ℚ} (h : 0 ≤ q) : 0 ≤ round4 q := by
  have := round4_mono h
  rwa [round4_zero] at this

theorem round4_le_one {q : ℚ} (h : q ≤ 1) : round4 q ≤ 1 := by
  have := round4_mono h
  rwa [round4_one] at this

theorem severityPenalty_critical : severityPenalty (.sev .critical) = 0.30 := rfl

theorem severityPenalty_major : severityPenalty (.sev .major) = 0.15 := rfl

theorem severityPenalty_minor : severityPenalty (.sev .minor) = 0.05 := rfl

theorem severityPenalty_info : severityPenalty (.sev .info) = 0.01 := rfl

theorem severityPenalty_other (t : String) : severityPenalty (.other t) = 0.1 := rfl

theorem severityPenalty_nonneg (v : SevValue) : 0 ≤ severityPenalty v := by
  cases v with
  | sev s =>
    cases s
    · rw [severityPenalty_critical]; norm_num
    · rw [severityPenalty_major]; norm_num
    · rw [severityPenalty_minor]; norm_num
    · rw [severityPenalty_info]; norm_num
  | other t => rw [severityPenalty_other]; norm_num

theorem severityPenalty_cases (v : SevValue) :
    severityPenalty v =
      (match v with
       | .sev .critical => (0.30 : ℚ)
       | .sev .major => (0.15 : ℚ)
       | .sev .minor => (0.05 : ℚ)
       | .sev .info => (0.01 : ℚ)
       | .other _ => (0.1 : ℚ)) := by
  cases v with
  | sev s => cases s <;> rfl
  | other t => rfl

theorem foldl_penalty (l : List Deviation) (a : ℚ) :
    l.foldl (fun acc d => acc + severityPenalty d.severity) a =
      a + (l.map (fun d => severityPenalty d.severity)).sum := by
  induction l generalizing a with
  | nil => simp
  | cons d l ih => simp [ih, add_assoc]

theorem penalty_sum_nonneg (l : List Deviation) :
    0 ≤ (l.map (fun d => severityPenalty d.severity)).sum := by
  apply List.sum_nonneg
  intro x hx
  obtain ⟨d, _, rfl⟩ := List.mem_map.mp hx
  exact severityPenalty_nonneg d.severity

theorem calculate_fitness_eq (ds : List Deviation) :
    calculate_fitness ds =
      round4 (max 0 (1 - (ds.map (fun d => severityPenalty d.severity)).sum)) := by
  unfold calculate_fitness
  by_cases h : ds.isEmpty
  · rw [if_pos h]
    rw [List.isEmpty_iff] at h
    subst h
    simp [round4_one]
  · rw [if_neg h]
    rw [foldl_penalty]
    rw [zero_add]

/-! ### C1 -/

/-- C1: for every list of deviations, `_calculate_fitness` starts at 1.0,
subtracts a fixed penalty per deviation by severity (Critical 0.30,
Major 0.15, Minor 0.05, Info 0.01, and 0.10 for an unrecognized severity),
clamps at a minimum of 0.0 and rounds to 4 decimal places; an empty
deviation list yields exactly 1.0. -/
theorem calculate_fitness_spec :
    (∀ ds : List Deviation,
      calculate_fitness ds =
        round4 (max 0 (1 - (ds.map (fun d =>
          match d.severity with
          | .sev .critical => (0.30 : ℚ)
          | .sev .major => (0.15 : ℚ)
          | .sev .minor => (0.05 : ℚ)
          | .sev .info => (0.01 : ℚ)
          | .other _ => (0.1 : ℚ))).sum))) ∧
    calculate_fitness [] = 1 := by
  constructor
  · intro ds
    rw [calculate_fitness_eq]
    rw [List.map_congr_left (fun (d : Deviation) _ => severityPenalty_cases d.severity)]
  · rfl

/-! ### C6 -/

/-- C6: appending any single deviation never increases the computed
fitness, and the fitness always lies in the closed interval [0, 1]. -/
theorem calculate_fitness_monotone_bounds :
    (∀ (ds : List Deviation) (d : Deviation),
      calculate_fitness (ds ++ [d]) ≤ calculate_fitness ds) ∧
    (∀ ds : List Deviation,
      0 ≤ calculate_fitness ds ∧ calculate_fitness ds ≤ 1) := by
  have hb : ∀ ds : List Deviation,
      0 ≤ calculate_fitness ds ∧ calculate_fitness ds ≤ 1 := by
    intro ds
    rw [calculate_fitness_eq]
    constructor
    · exact round4_nonneg (le_max_left _ _)
    · apply round4_le_one
      apply max_le (by norm_num)
      have := penalty_sum_nonneg ds
      linarith
  refine ⟨?_, hb⟩
  intro ds d
  rw [calculate_fitness_eq, calculate_fitness_eq]
  apply round4_mono
  apply max_le_max le_rfl
  have hsum : ((ds ++ [d]).map (fun x => severityPenalty x.severity)).sum =
      (ds.map (fun x => severityPenalty x.severity)).sum + severityPenalty d.severity := by
    simp
  rw [hsum]
  have := severityPenalty_nonneg d.severity
  linarith

/-! ### C2 -/

/-- C2: `check_trace` classifies a case as conformant in default mode iff
the detected deviation list contains no Critical deviation, in strict mode
iff the list is empty; `is_fully_conformant` holds iff the list is empty. -/
theorem check_trace_conformance_spec (m : ProcessModel) (rules : SeverityRules)
    (strict_mode : Bool) (trace : List TraceEvent) (case_id : String) :
    ((check_trace m rules strict_mode trace case_id).is_conformant = true ↔
      (if strict_mode = true then
        (check_trace m rules strict_mode trace case_id).deviations = []
       else ∀ d ∈ (check_trace m rules strict_mode trace case_id).deviations,
        d.severity ≠ .sev .critical)) ∧
    ((check_trace m rules strict_mode trace case_id).is_fully_conformant = true ↔
      (check_trace m rules strict_mode trace case_id).deviations = []) := by
  cases strict_mode <;>
    simp [check_trace, List.countP_eq_zero, List.length_eq_zero]

/-! ### C7 -/

/-- C7: `add_transition` raises exactly when the source or target activity
name is absent from the activity map, and on that error the model is left
unchanged. -/
theorem add_transition_error_spec (m : ProcessModel) (t : Transition) :
    ((add_transition m t).2.isSome = true ↔
      ((m.activities.lookup t.source.name).isNone = true ∨
       (m.activities.lookup t.target.name).isNone = true)) ∧
    ((add_transition m t).2.isSome = true → (add_transition m t).1 = m) := by
  unfold add_transition
  by_cases h1 : (m.activities.lookup t.source.name).isNone = true <;>
    by_cases h2 : (m.activities.lookup t.target.name).isNone = true <;>
      simp [h1, h2]

/-- Witness for C7 at a concrete input: on the empty model, adding the
transition `wT` errors and leaves the model unchanged. -/
theorem add_transition_error_spec_witness :
    (add_transition {} wT).2.isSome = true ∧
    (add_transition {} wT).1 = ({} : ProcessModel) :=
  ⟨by decide, (add_transition_error_spec {} wT).2 (by decide)⟩

/-! ### C9 -/

/-- C9: an activity whose alias set is non-empty and does not contain its
own name does not match the event equal to its name; consequently
`get_activity_for_event` can miss an event string that names an existing
activity (shown on `wAliasModel`). -/
theorem matches_event_alias_spec :
    (∀ a : Activity, a.sap_event_types ≠ [] → ¬ a.name ∈ a.sap_event_types →
      a.matches_event a.name = false) ∧
    (get_activity wAliasModel "X").isSome = true ∧
    get_activity_for_event wAliasModel "X" = none := by
  refine ⟨?_, by decide, by decide⟩
  intro a h1 h2
  unfold Activity.matches_event
  rw [if_neg (by simpa [List.isEmpty_iff] using h1)]
  simpa using h2

/-- Witness for C9 at the concrete aliased activity `wAliased`. -/
theorem matches_event_alias_spec_witness :
    wAliased.sap_event_types ≠ [] ∧ ¬ wAliased.name ∈ wAliased.sap_event_types ∧
    wAliased.matches_event wAliased.name = false :=
  ⟨by decide, by decide,
    matches_event_alias_spec.1 wAliased (by decide) (by decide)⟩

/-! ### Association-list and set helper lemmas -/

theorem lookup_append {α : Type} (d l : List (String × α)) (k : String) :
    (d ++ l).lookup k = ((d.lookup k).or (l.lookup k)) := by
  induction d with
  | nil => simp
  | cons p d ih =>
    obtain ⟨k1, v1⟩ := p
    by_cases h : (k == k1) = true <;> simp [List.lookup_cons, h, ih]

theorem lookup_eq_none_forall {α : Type} {d : List (String × α)} {k : String}
    (h : d.lookup k = none) : ∀ p ∈ d, p.1 ≠ k := by
  induction d with
  | nil => simp
  | cons p d ih =>
    obtain ⟨k1, v1⟩ := p
    by_cases hk : (k == k1) = true
    · simp [List.lookup_cons, hk] at h
    · rw [List.lookup_cons] at h
      simp only [hk] at h
      intro q hq
      rcases List.mem_cons.mp hq with hq | hq
      · subst hq
        intro hq1
        subst hq1
        simp at hk
      · exact ih h q hq

theorem lookup_map_replace {α : Type} {d : List (String × α)} {k : String} (v : α)
    (h : (d.lookup k).isSome = true) :
    (d.map (fun p => if p.1 = k then (k, v) else p)).lookup k = some v := by
  induction d with
  | nil => simp at h
  | cons p d ih =>
    obtain ⟨k1, v1⟩ := p
    by_cases hk : (k == k1) = true
    · have hk1 : k1 = k := (eq_of_beq hk).symm
      subst hk1
      simp [List.lookup_cons]
    · rw [List.lookup_cons] at h
      simp only [hk] at h
      have hk1 : ¬ k1 = k := by
        intro he
        subst he
        simp at hk
      simp only [List.map_cons, if_neg hk1, List.lookup_cons, hk]
      exact ih h

theorem lookup_map_replace_ne {α : Type} (d : List (String × α)) {k k' : String} (v : α)
    (h : k' ≠ k) :
    (d.map (fun p => if p.1 = k then (k, v) else p)).lookup k' = d.lookup k' := by
  induction d with
  | nil => simp
  | cons p d ih =>
    obtain ⟨k1, v1⟩ := p
    by_cases hk1 : k1 = k
    · subst hk1
      have : (k' == k1) = false := beq_false_of_ne h
      simp [List.lookup_cons, this, ih]
    · by_cases hk' : (k' == k1) = true <;>
        simp [List.lookup_cons, hk', if_neg hk1, ih]

theorem lookup_dictSet_self {α : Type} (d : List (String × α)) (k : String) (v : α) :
    (dictSet d k v).lookup k = some v := by
  unfold dictSet
  by_cases h : (d.lookup k).isSome = true
  · rw [if_pos h]
    exact lookup_map_replace v h
  · rw [if_neg h]
    rw [lookup_append]
    have hn : d.lookup k = none := Option.not_isSome_iff_eq_none.mp h
    simp [hn, List.lookup_cons]

theorem lookup_dictSet_ne {α : Type} (d : List (String × α)) {k k' : String} (v : α)
    (h : k' ≠ k) : (dictSet d k v).lookup k' = d.lookup k' := by
  unfold dictSet
  by_cases hs : (d.lookup k).isSome = true
  · rw [if_pos hs]
    exact lookup_map_replace_ne d v h
  · rw [if_neg hs]
    rw [lookup_append]
    have : (k' == k) = false := beq_false_of_ne h
    simp [List.lookup_cons, this]

theorem mem_setAdd {s : List String} {x y : String} :
    y ∈ setAdd s x ↔ y ∈ s ∨ y = x := by
  unfold setAdd
  by_cases h : x ∈ s
  · rw [if_pos h]
    constructor
    · exact Or.inl
    · rintro (hy | rfl)
      · exact hy
      · exact h
  · rw [if_neg h]
    simp

theorem mem_setAdd_self (s : List String) (x : String) : x ∈ setAdd s x :=
  mem_setAdd.mpr (Or.inr rfl)

theorem setAdd_idem {s : List String} {x : String} (h : x ∈ s) : setAdd s x = s := by
  unfold setAdd
  rw [if_pos h]

theorem dictSet_map_stable {α : Type} (d : List (String × α)) (k : String) (v : α)
    (hall : ∀ p ∈ d, p.1 = k → p = (k, v)) :
    d.map (fun p => if p.1 = k then (k, v) else p) = d := by
  induction d with
  | nil => rfl
  | cons p d ih =>
    have hp : (if p.1 = k then (k, v) else p) = p := by
      by_cases h : p.1 = k
      · rw [if_pos h]
        exact (hall p (List.mem_cons_self p d) h).symm
      · rw [if_neg h]
    rw [List.map_cons, hp, ih]
    intro q hq hqk
    exact hall q (List.mem_cons_of_mem p hq) hqk

theorem dictSet_stable {α : Type} (d : List (String × α)) (k : String) (v : α)
    (hsome : (d.lookup k).isSome = true)
    (hall : ∀ p ∈ d, p.1 = k → p = (k, v)) :
    dictSet d k v = d := by
  unfold dictSet
  rw [if_pos hsome]
  exact dictSet_map_stable d k v hall

theorem dictSet_entries {α : Type} (d : List (String × α)) (k : String) (v : α) :
    ∀ p ∈ dictSet d k v, p.1 = k → p = (k, v) := by
  unfold dictSet
  by_cases hs : (d.lookup k).isSome = true
  · rw [if_pos hs]
    intro p hp hpk
    obtain ⟨q, hq, hfq⟩ := List.mem_map.mp hp
    by_cases hqk : q.1 = k
    · rw [if_pos hqk] at hfq
      exact hfq.symm
    · rw [if_neg hqk] at hfq
      rw [← hfq] at hpk
      exact absurd hpk hqk
  · rw [if_neg hs]
    intro p hp hpk
    rcases List.mem_append.mp hp with hp | hp
    · exact absurd hpk
        (lookup_eq_none_forall (Option.not_isSome_iff_eq_none.mp hs) p hp)
    · simpa using List.mem_singleton.mp hp

theorem adjAdd_adjAdd (adj : List (String × List String)) (k v : String) :
    adjAdd (adjAdd adj k v) k v = adjAdd adj k v := by
  cases h : adj.lookup k with
  | some s =>
    have h1 : adjAdd adj k v = dictSet adj k (setAdd s v) := by
      unfold adjAdd
      rw [h]
    have h2 : (dictSet adj k (setAdd s v)).lookup k = some (setAdd s v) :=
      lookup_dictSet_self adj k (setAdd s v)
    rw [h1]
    unfold adjAdd
    rw [h2]
    dsimp only
    rw [setAdd_idem (mem_setAdd_self s v)]
    exact dictSet_stable _ _ _ (by rw [h2]; rfl) (dictSet_entries adj k (setAdd s v))
  | none =>
    have h1 : adjAdd adj k v = adj ++ [(k, setAdd [] v)] := by
      unfold adjAdd
      rw [h]
    have hv : setAdd [] v = [v] := by
      unfold setAdd
      simp
    rw [h1, hv]
    have h2 : (adj ++ [(k, [v])]).lookup k = some [v] := by
      rw [lookup_append, h]
      simp [List.lookup_cons]
    unfold adjAdd
    rw [h2]
    dsimp only
    rw [setAdd_idem (by simp : v ∈ [v])]
    apply dictSet_stable _ _ _ (by rw [h2]; rfl)
    intro p hp hpk
    rcases List.mem_append.mp hp with hp | hp
    · exact absurd hpk (lookup_eq_none_forall h p hp)
    · simpa using List.mem_singleton.mp hp

/-! ### C4 -/

/-- C4 counterexample: adding the transition `wT` to `wModel` a second time
appends a second copy to the transition list, so the transition collection
after both calls differs from the collection after the first call alone. -/
theorem add_transition_duplicate_counterexample :
    wModelDup.transitions ≠ wModel.transitions := by decide

/-- C4 (amended): re-adding a transition whose `(source.name, target.name)`
pair already succeeded leaves the adjacency maps (and every other field)
unchanged but appends a duplicate entry to the transition list. -/
theorem add_transition_duplicate_spec (m : ProcessModel) (t1 t2 : Transition)
    (m1 : ProcessModel) (h : add_transition m t1 = (m1, none))
    (hs : t2.source.name = t1.source.name) (ht : t2.target.name = t1.target.name) :
    add_transition m1 t2 = ({ m1 with transitions := m1.transitions ++ [t2] }, none) := by
  unfold add_transition at h
  by_cases h1 : (m.activities.lookup t1.source.name).isNone = true
  · rw [if_pos h1] at h
    simp at h
  · rw [if_neg h1] at h
    by_cases h2 : (m.activities.lookup t1.target.name).isNone = true
    · rw [if_pos h2] at h
      simp at h
    · rw [if_neg h2] at h
      have hm1 : m1 = { m with
          transitions := m.transitions ++ [t1]
          outgoing := adjAdd m.outgoing t1.source.name t1.target.name
          incoming := adjAdd m.incoming t1.target.name t1.source.name } := by
        have := congrArg Prod.fst h
        simpa using this.symm
      subst hm1
      unfold add_transition
      rw [hs, ht]
      dsimp only
      rw [if_neg h1, if_neg h2]
      rw [adjAdd_adjAdd, adjAdd_adjAdd]

/-- Witness for C4's amended statement at the concrete model `wModel`. -/
theorem add_transition_duplicate_spec_witness :
    add_transition wModel wT =
      ({ wModel with transitions := wModel.transitions ++ [wT] }, none) :=
  add_transition_duplicate_spec (buildModel [wActA, wActB]) wT wT wModel
    (by decide) rfl rfl

theorem setAdd_subset {s : List String} {x n : String} (h : n ∈ s) : n ∈ setAdd s x :=
  mem_setAdd.mpr (Or.inl h)

theorem buildModel_mandatory_inv (acts : List Activity) :
    ∀ m0 : ProcessModel,
      (∀ a ∈ acts, m0.activities.lookup a.name = none) →
      (acts.map Activity.name).Nodup →
      (∀ n, n ∈ m0.mandatory_activities ↔
        ∃ act, m0.activities.lookup n = some act ∧ act.activity_type ≠ .OPTIONAL) →
      ∀ n, n ∈ (acts.foldl add_activity m0).mandatory_activities ↔
        ∃ act, (acts.foldl add_activity m0).activities.lookup n = some act ∧
          act.activity_type ≠ .OPTIONAL := by
  induction acts with
  | nil =>
    intro m0 _ _ hinv n
    exact hinv n
  | cons a acts ih =>
    intro m0 hfresh hnd hinv n
    rw [List.map_cons, List.nodup_cons] at hnd
    rw [List.foldl_cons]
    apply ih
    · intro b hb
      have hbn : b.name ≠ a.name := by
        intro he
        exact hnd.1 (he ▸ List.mem_map_of_mem Activity.name hb)
      show (dictSet m0.activities a.name a).lookup b.name = none
      rw [lookup_dictSet_ne _ _ hbn]
      exact hfresh b (List.mem_cons_of_mem a hb)
    · exact hnd.2
    · intro q
      show q ∈ (if a.activity_type ≠ .OPTIONAL then setAdd m0.mandatory_activities a.name
          else m0.mandatory_activities) ↔
        ∃ act, (dictSet m0.activities a.name a).lookup q = some act ∧
          act.activity_type ≠ .OPTIONAL
      by_cases hq : q = a.name
      · subst hq
        rw [lookup_dictSet_self]
        have hfr : m0.activities.lookup a.name = none :=
          hfresh a (List.mem_cons_self a acts)
        by_cases hk : a.activity_type = .OPTIONAL
        · rw [if_neg (by simp [hk])]
          constructor
          · intro hmem
            obtain ⟨act, hact, -⟩ := (hinv a.name).mp hmem
            rw [hfr] at hact
            exact Option.noConfusion hact
          · rintro ⟨act, hact, hneq⟩
            injection hact with he
            subst he
            exact absurd hk hneq
        · rw [if_pos hk]
          constructor
          · intro _
            exact ⟨a, rfl, hk⟩
          · intro _
            exact mem_setAdd_self _ _
      · rw [lookup_dictSet_ne _ _ hq]
        by_cases hk : a.activity_type ≠ .OPTIONAL
        · rw [if_pos hk]
          rw [show (q ∈ setAdd m0.mandatory_activities a.name) ↔
              q ∈ m0.mandatory_activities from mem_setAdd.trans (or_iff_left hq)]
          exact hinv q
        · rw [if_neg hk]
          exact hinv q

/-! ### C10 -/

/-- C10: `add_activity` only ever grows the start, end and mandatory sets;
re-adding a name with a different kind leaves it in the sets of its former
kind (shown concretely: X re-added as OPTIONAL stays mandatory and a start
activity while the activity map holds the OPTIONAL record), and for models
built by adding each activity name at most once, `mandatory_activities`
consists exactly of the names whose stored activity kind is not Optional. -/
theorem add_activity_sets_grow_spec :
    (∀ (m : ProcessModel) (a : Activity) (n : String),
      (n ∈ m.start_activities → n ∈ (add_activity m a).start_activities) ∧
      (n ∈ m.end_activities → n ∈ (add_activity m a).end_activities) ∧
      (n ∈ m.mandatory_activities → n ∈ (add_activity m a).mandatory_activities)) ∧
    ("X" ∈ wReaddModel.mandatory_activities ∧
      "X" ∈ wReaddModel.start_activities ∧
      get_activity wReaddModel "X" = some wXOptional) ∧
    (∀ acts : List Activity, (acts.map Activity.name).Nodup →
      ∀ n, n ∈ (buildModel acts).mandatory_activities ↔
        ∃ act, get_activity (buildModel acts) n = some act ∧
          act.activity_type ≠ .OPTIONAL) := by
  refine ⟨?_, ⟨by decide, by decide, by decide⟩, ?_⟩
  · intro m a n
    refine ⟨?_, ?_, ?_⟩
    · intro hn
      show n ∈ (if a.activity_type = .START then setAdd m.start_activities a.name
          else m.start_activities)
      split
      · exact setAdd_subset hn
      · exact hn
    · intro hn
      show n ∈ (if a.activity_type = .START then m.end_activities
          else if a.activity_type = .END then setAdd m.end_activities a.name
          else m.end_activities)
      split
      · exact hn
      · split
        · exact setAdd_subset hn
        · exact hn
    · intro hn
      show n ∈ (if a.activity_type ≠ .OPTIONAL then setAdd m.mandatory_activities a.name
          else m.mandatory_activities)
      split
      · exact setAdd_subset hn
      · exact hn
  · intro acts hnd n
    exact buildModel_mandatory_inv acts {} (by intro a _; rfl) hnd (by simp) n

/-- Witness for C10 at the concrete two-activity model. -/
theorem add_activity_sets_grow_spec_witness :
    ([wActA, wActB].map Activity.name).Nodup ∧
    ("A" ∈ (buildModel [wActA, wActB]).mandatory_activities ↔
      ∃ act, get_activity (buildModel [wActA, wActB]) "A" = some act ∧
        act.activity_type ≠ .OPTIONAL) :=
  ⟨by decide, add_activity_sets_grow_spec.2.2 [wActA, wActB] (by decide) "A"⟩

theorem filter_sev_orderedInsert (s : SevValue) (a : Deviation) (l : List Deviation) :
    (List.orderedInsert devLE a l).filter (fun d => d.severity == s) =
      if (a.severity == s) = true then a :: l.filter (fun d => d.severity == s)
      else l.filter (fun d => d.severity == s) := by
  induction l with
  | nil =>
    by_cases h : (a.severity == s) = true <;>
      simp [List.orderedInsert, List.filter, h]
  | cons b l ih =>
    show (if devLE a b then a :: b :: l else b :: List.orderedInsert devLE a l).filter
        (fun d => d.severity == s) = _
    by_cases hr : devLE a b
    · rw [if_pos hr]
      by_cases ha : (a.severity == s) = true <;>
        simp [List.filter_cons, ha]
    · rw [if_neg hr]
      have hrb : sevValRank b.severity < sevValRank a.severity :=
        Nat.lt_of_not_le hr
      by_cases ha : (a.severity == s) = true
      · have hb : (b.severity == s) = false := by
          rw [beq_iff_eq] at ha
          apply beq_false_of_ne
          intro he
          rw [he, ha] at hrb
          exact Nat.lt_irrefl _ hrb
        rw [List.filter_cons, ih]
        simp [hb, ha]
      · rw [List.filter_cons, ih]
        simp only [if_neg ha]
        rw [List.filter_cons]

theorem filter_sev_insertionSort (s : SevValue) (l : List Deviation) :
    (l.insertionSort devLE).filter (fun d => d.severity == s) =
      l.filter (fun d => d.severity == s) := by
  induction l with
  | nil => rfl
  | cons a l ih =>
    show (List.orderedInsert devLE a (l.insertionSort devLE)).filter
        (fun d => d.severity == s) = _
    rw [filter_sev_orderedInsert, ih, List.filter_cons]

/-! ### C5 -/

/-- C5: `detect_deviations` returns a list sorted by severity under
Critical < Major < Minor < Info, and deviations of equal severity keep the
order in which the six passes emitted them: the output filtered to any one
severity equals the concatenated pass output filtered to that severity
(with the empty-activity short circuit producing the empty list). -/
theorem detect_deviations_sorted_spec (m : ProcessModel) (rules : SeverityRules)
    (trace : List TraceEvent) (case_id : String) :
    (detect_deviations m rules trace case_id).Pairwise devLE ∧
    (∀ s : SevValue,
      (detect_deviations m rules trace case_id).filter (fun d => d.severity == s) =
        (if (extract_activities m trace).isEmpty then []
         else detect_deviations_raw m rules trace case_id).filter
          (fun d => d.severity == s)) ∧
    List.Pairwise (fun a b => Severity.pylt a b = true)
      [.critical, .major, .minor, .info] := by
  refine ⟨?_, ?_, by decide⟩
  · by_cases h : (extract_activities m trace).isEmpty = true
    · simp [detect_deviations, h]
    · have hs := List.sorted_insertionSort devLE
        (detect_deviations_raw m rules trace case_id)
      simpa [detect_deviations, h] using hs
  · intro s
    by_cases h : (extract_activities m trace).isEmpty = true <;>
      simp [detect_deviations, h, filter_sev_insertionSort]

theorem lookup_map_snd {α β : Type} (f : α → β) (l : List (String × α)) (c : String) :
    ((l.map (fun p => (p.1, f p.2))).lookup c) = (l.lookup c).map f := by
  induction l with
  | nil => rfl
  | cons p l ih =>
    obtain ⟨k, v⟩ := p
    by_cases h : (c == k) = true <;> simp [List.lookup_cons, h, ih]

theorem groupByCase_foldl_lookup (events : List FlatEvent) :
    ∀ (acc : List (String × List CaseEvent)) (c : String),
      ((events.foldl groupStep acc).lookup c) =
        (match acc.lookup c with
         | some l0 =>
           some (l0 ++ (events.filter (fun e => flatCaseId e == c)).map toCaseEvent)
         | none =>
           if ((events.filter (fun e => flatCaseId e == c)).isEmpty) = true then none
           else some ((events.filter (fun e => flatCaseId e == c)).map toCaseEvent)) := by
  induction events with
  | nil =>
    intro acc c
    cases h : acc.lookup c <;> simp [h]
  | cons e events ih =>
    intro acc c
    rw [List.foldl_cons]
    by_cases hc : flatCaseId e = c
    · have hbeq : (flatCaseId e == c) = true := beq_iff_eq.mpr hc
      rw [List.filter_cons]
      simp only [hbeq, if_true]
      cases hacc : acc.lookup (flatCaseId e) with
      | some l =>
        have hstep : groupStep acc e = dictSet acc (flatCaseId e) (l ++ [toCaseEvent e]) := by
          simp only [groupStep]
          rw [hacc]
        rw [hstep, ih]
        have hl : (dictSet acc (flatCaseId e) (l ++ [toCaseEvent e])).lookup c =
            some (l ++ [toCaseEvent e]) := by
          rw [← hc]
          exact lookup_dictSet_self _ _ _
        rw [hl]
        rw [hc] at hacc
        rw [hacc]
        simp
      | none =>
        have hstep : groupStep acc e = acc ++ [(flatCaseId e, [toCaseEvent e])] := by
          simp only [groupStep]
          rw [hacc]
        rw [hstep, ih]
        have hl : (acc ++ [(flatCaseId e, [toCaseEvent e])]).lookup c =
            some [toCaseEvent e] := by
          rw [lookup_append, ← hc, hacc]
          simp [List.lookup_cons]
        rw [hl]
        rw [hc] at hacc
        rw [hacc]
        simp
    · have hbeq : (flatCaseId e == c) = false := beq_false_of_ne hc
      rw [List.filter_cons]
      simp only [hbeq, Bool.false_eq_true, if_false]
      cases hacc : acc.lookup (flatCaseId e) with
      | some l =>
        have hstep : groupStep acc e = dictSet acc (flatCaseId e) (l ++ [toCaseEvent e]) := by
          simp only [groupStep]
          rw [hacc]
        rw [hstep, ih]
        rw [lookup_dictSet_ne _ _ (fun he => hc he.symm)]
      | none =>
        have hstep : groupStep acc e = acc ++ [(flatCaseId e, [toCaseEvent e])] := by
          simp only [groupStep]
          rw [hacc]
        rw [hstep, ih]
        have hl : (acc ++ [(flatCaseId e, [toCaseEvent e])]).lookup c = acc.lookup c := by
          rw [lookup_append]
          have : (c == flatCaseId e) = false := beq_false_of_ne (fun he => hc he.symm)
          simp [List.lookup_cons, this]
        rw [hl]

/-! ### C8 -/

/-- C8 counterexample: in `wFlatEvents` (one case: first an event carrying
the minimum timestamp, then an event with no timestamp) the sorted group
keeps the timestamped event first, so it is not true that events without a
timestamp sort before all events that have one. -/
theorem check_flat_log_missing_first_counterexample :
    ¬ (∀ g ∈ check_flat_log_cases wFlatEvents, ∀ a b : CaseEvent,
        [a, b].Sublist g.2 → b.timestamp = none → a.timestamp = none) := by
  intro h
  have hgo := h ("c", [{ activity := some "A", timestamp := some 0 },
                       { activity := some "B", timestamp := none }]) (by decide)
    { activity := some "A", timestamp := some 0 }
    { activity := some "B", timestamp := none } (by decide) rfl
  exact absurd hgo (by decide)

/-- C8 (amended): `check_flat_log` groups events by case id and sorts each
group stably by timestamp with a missing timestamp treated as the minimum
possible value; hence inside each group a missing-timestamp event is never
preceded by an event with a timestamp strictly greater than the minimum
(an event carrying exactly the minimum timestamp ties and stays in its
original relative position). -/
theorem check_flat_log_cases_spec (events : List FlatEvent) :
    (∀ c : String,
      (check_flat_log_cases events).lookup c =
        (if ((events.filter (fun e => flatCaseId e == c)).isEmpty) = true then none
         else some (sortCaseEvents
           ((events.filter (fun e => flatCaseId e == c)).map toCaseEvent)))) ∧
    (∀ g ∈ check_flat_log_cases events, g.2.Pairwise ceLE) ∧
    (∀ g ∈ check_flat_log_cases events,
      g.2.Pairwise (fun a b => b.timestamp = none →
        a.timestamp = none ∨ a.timestamp = some 0)) := by
  have hsorted : ∀ g ∈ check_flat_log_cases events, g.2.Pairwise ceLE := by
    intro g hg
    obtain ⟨p, -, rfl⟩ := List.mem_map.mp hg
    exact List.sorted_insertionSort ceLE p.2
  refine ⟨?_, hsorted, ?_⟩
  · intro c
    unfold check_flat_log_cases
    rw [lookup_map_snd]
    rw [show groupByCase events = events.foldl groupStep [] from rfl]
    rw [groupByCase_foldl_lookup events [] c]
    cases hf : ((events.filter (fun e => flatCaseId e == c)).isEmpty) <;>
      simp [hf]
  · intro g hg
    apply List.Pairwise.imp ?_ (hsorted g hg)
    intro a b hab hb
    unfold ceLE caseEventKey at hab
    rw [hb] at hab
    simp at hab
    cases hta : a.timestamp with
    | none => exact Or.inl rfl
    | some t =>
      rw [hta] at hab
      simp at hab
      subst hab
      exact Or.inr rfl

/-- Witness for C8's amended statement: the sorted group of case `c` of
`wFlatEvents` is sorted by the timestamp key. -/
theorem check_flat_log_cases_spec_witness :
    (sortCaseEvents ((wFlatEvents.filter
      (fun e => flatCaseId e == "c")).map toCaseEvent)).Pairwise ceLE := by
  have hmem : ("c", sortCaseEvents ((wFlatEvents.filter
      (fun e => flatCaseId e == "c")).map toCaseEvent)) ∈
      check_flat_log_cases wFlatEvents := by decide
  exact (check_flat_log_cases_spec wFlatEvents).2.1 _ hmem

/-! ### Lemmas for the dependency-order DFS (C3) -/

theorem visit_succ (m : ProcessModel) (f : Nat) (name : String) (st : VisitState) :
    visit m (f + 1) name st =
      if name ∈ st.visited then st
      else
        if name ∈ m.mandatory_activities then
          { (get_valid_previous_activities m name).foldl
              (fun s p => if p ∈ m.mandatory_activities then visit m f p s else s)
              { st with visited := name :: st.visited } with
            result := ((get_valid_previous_activities m name).foldl
              (fun s p => if p ∈ m.mandatory_activities then visit m f p s else s)
              { st with visited := name :: st.visited }).result ++ [name] }
        else
          (get_valid_previous_activities m name).foldl
            (fun s p => if p ∈ m.mandatory_activities then visit m f p s else s)
            { st with visited := name :: st.visited } := rfl

theorem chain_transGen {R : String → String → Prop} :
    ∀ {x : String} {l : List String}, List.Chain' R (x :: l) →
      ∀ y ∈ l, Relation.TransGen R x y := by
  intro x l
  induction l generalizing x with
  | nil =>
    intro _ y hy
    simp at hy
  | cons b l ih =>
    intro hch y hy
    rw [List.chain'_cons] at hch
    rcases List.mem_cons.mp hy with rfl | hy
    · exact Relation.TransGen.single hch.1
    · exact Relation.TransGen.head hch.1 (ih hch.2 y hy)

theorem cUM_le (m : ProcessModel) (st : VisitState) :
    cUM m st ≤ m.mandatory_activities.length :=
  le_trans (List.length_filter_le _ _)
    (List.Sublist.length_le (List.dedup_sublist _))

theorem cUM_mono (m : ProcessModel) {st st' : VisitState}
    (h : ∀ x ∈ st.visited, x ∈ st'.visited) : cUM m st' ≤ cUM m st := by
  apply List.Sublist.length_le
  apply List.monotone_filter_right
  intro a ha
  rw [decide_eq_true_eq] at ha ⊢
  intro hmem
  exact ha (h a hmem)

theorem countP_notmem_insert (v : List String) (x : String) (hnv : ¬ x ∈ v) :
    ∀ L : List String, L.Nodup → x ∈ L →
      L.countP (fun y => ¬ y ∈ x :: v) + 1 = L.countP (fun y => ¬ y ∈ v) := by
  intro L
  induction L with
  | nil =>
    intro _ hx
    simp at hx
  | cons a L ih =>
    intro hnd hx
    rw [List.nodup_cons] at hnd
    rw [List.countP_cons, List.countP_cons]
    rcases List.mem_cons.mp hx with rfl | hx
    · have h1 : (decide ¬ (x ∈ x :: v)) = false := by simp
      have h2 : (decide ¬ (x ∈ v)) = true := by simp [hnv]
      have hcong : L.countP (fun y => ¬ y ∈ x :: v) = L.countP (fun y => ¬ y ∈ v) := by
        apply List.countP_congr
        intro y hy
        have hne : y ≠ x := fun he => hnd.1 (he ▸ hy)
        simp only [decide_eq_true_eq]
        constructor
        · intro hyn hyv
          exact hyn (List.mem_cons_of_mem x hyv)
        · intro hyv hyc
          rcases List.mem_cons.mp hyc with he | hm
          · exact hne he
          · exact hyv hm
      rw [hcong, h1, h2]
      simp
    · have hane : a ≠ x := fun he => hnd.1 (he ▸ hx)
      have hpred : (decide ¬ (a ∈ x :: v)) = (decide ¬ (a ∈ v)) := by
        apply decide_eq_decide.mpr
        constructor
        · intro hyn hyv
          exact hyn (List.mem_cons_of_mem x hyv)
        · intro hyv hyc
          rcases List.mem_cons.mp hyc with he | hm
          · exact hane he
          · exact hyv hm
      rw [hpred]
      have ihr := ih hnd.2 hx
      omega

theorem cUM_insert (m : ProcessModel) (st : VisitState) {name : String}
    (hmand : name ∈ m.mandatory_activities) (hnv : ¬ name ∈ st.visited) :
    cUM m { st with visited := name :: st.visited } + 1 = cUM m st := by
  unfold cUM
  rw [← List.countP_eq_length_filter, ← List.countP_eq_length_filter]
  exact countP_notmem_insert st.visited name hnv m.mandatory_activities.dedup
    (List.nodup_dedup _) (List.mem_dedup.mpr hmand)

theorem cUM_insert_notmand (m : ProcessModel) (st : VisitState) {name : String}
    (hmand : ¬ name ∈ m.mandatory_activities) :
    cUM m { st with visited := name :: st.visited } = cUM m st := by
  unfold cUM
  apply congrArg List.length
  apply List.filter_congr
  intro y hy
  have hne : y ≠ name := fun he => hmand (he ▸ List.mem_dedup.mp hy)
  apply decide_eq_decide.mpr
  constructor
  · intro hyn hyv
    exact hyn (List.mem_cons_of_mem name hyv)
  · intro hyv hyc
    rcases List.mem_cons.mp hyc with he | hm
    · exact hne he
    · exact hyv hm

theorem append_singleton_split {α : Type} {a l1 l2 : List α} {x n : α}
    (h : a ++ [x] = l1 ++ n :: l2) :
    (l1 = a ∧ n = x ∧ l2 = []) ∨ ∃ l2', l2 = l2' ++ [x] ∧ a = l1 ++ n :: l2' := by
  rcases List.eq_nil_or_concat l2 with rfl | ⟨l2', y, rfl⟩
  · obtain ⟨ha, hx⟩ := List.append_inj' h (by simp)
    injection hx with hx _
    exact Or.inl ⟨ha.symm, hx.symm, rfl⟩
  · rw [List.concat_eq_append] at h
    have h2 : a ++ [x] = (l1 ++ n :: l2') ++ [y] := by
      rw [h]
      simp
    obtain ⟨ha, hxy⟩ := List.append_inj' h2 rfl
    injection hxy with hxy _
    subst hxy
    exact Or.inr ⟨l2', by rw [List.concat_eq_append], ha⟩

theorem visit_spec (m : ProcessModel) (hacyc : MandAcyclic m) :
    ∀ (fuel : Nat) (name : String) (st : VisitState) (gray : List String),
      List.Chain' (predEdge m) (name :: gray) →
      cUM m st + (if name ∈ m.mandatory_activities then 1 else 2) ≤ fuel →
      VisitInv m st gray →
      VisitInv m (visit m fuel name st) gray ∧
      (∀ x ∈ st.visited, x ∈ (visit m fuel name st).visited) ∧
      (∃ app, (visit m fuel name st).result = st.result ++ app) ∧
      name ∈ (visit m fuel name st).visited ∧
      (name ∈ m.mandatory_activities → name ∈ (visit m fuel name st).result) := by
  intro fuel
  induction fuel with
  | zero =>
    intro name st gray _ hfuel _
    exfalso
    by_cases hm : name ∈ m.mandatory_activities
    · rw [if_pos hm] at hfuel
      omega
    · rw [if_neg hm] at hfuel
      omega
  | succ f ih =>
    intro name st gray hchain hfuel hinv
    rw [visit_succ]
    by_cases hv : name ∈ st.visited
    · rw [if_pos hv]
      refine ⟨hinv, fun x hx => hx, ⟨[], (List.append_nil _).symm⟩, hv, ?_⟩
      intro hmand
      rcases hinv.black name hmand hv with hres | hgray
      · exact hres
      · exact absurd (chain_transGen hchain name hgray) (hacyc name)
    · rw [if_neg hv]
      have hinv1 : VisitInv m { st with visited := name :: st.visited } (name :: gray) :=
        { nodup := hinv.nodup
          res_mand := hinv.res_mand
          res_vis := fun n hn => List.mem_cons_of_mem _ (hinv.res_vis n hn)
          gray_vis := by
            intro g hg
            rcases List.mem_cons.mp hg with rfl | hg
            · exact List.mem_cons_self _ _
            · exact List.mem_cons_of_mem _ (hinv.gray_vis g hg)
          gray_res := by
            intro g hg
            rcases List.mem_cons.mp hg with rfl | hg
            · intro hr
              exact hv (hinv.res_vis g hr)
            · exact hinv.gray_res g hg
          black := by
            intro x hxm hxv
            rcases List.mem_cons.mp hxv with rfl | hxv
            · exact Or.inr (List.mem_cons_self _ _)
            · rcases hinv.black x hxm hxv with h | h
              · exact Or.inl h
              · exact Or.inr (List.mem_cons_of_mem _ h)
          topo := by
            intro l1 n l2 hsplit p hp
            rcases hinv.topo l1 n l2 hsplit p hp with h | ⟨hg, ht⟩
            · exact Or.inl h
            · exact Or.inr ⟨List.mem_cons_of_mem _ hg, ht⟩ }
      have hfold : ∀ ps : List String,
          (∀ p ∈ ps, p ∈ get_valid_previous_activities m name) →
          ∀ s : VisitState,
          VisitInv m s (name :: gray) →
          (∀ x ∈ ({ st with visited := name :: st.visited } : VisitState).visited,
            x ∈ s.visited) →
          (∃ app, s.result = st.result ++ app) →
          VisitInv m (ps.foldl
            (fun s p => if p ∈ m.mandatory_activities then visit m f p s else s) s)
            (name :: gray) ∧
          (∀ x ∈ s.visited, x ∈ (ps.foldl
            (fun s p => if p ∈ m.mandatory_activities then visit m f p s else s)
              s).visited) ∧
          (∃ app, (ps.foldl
            (fun s p => if p ∈ m.mandatory_activities then visit m f p s else s)
              s).result = st.result ++ app) ∧
          (∀ p ∈ ps, p ∈ m.mandatory_activities → p ∈ (ps.foldl
            (fun s p => if p ∈ m.mandatory_activities then visit m f p s else s)
              s).visited) := by
        intro ps
        induction ps with
        | nil =>
          intro _ s hs _ hres
          exact ⟨hs, fun x hx => hx, hres, by simp⟩
        | cons p ps ihp =>
          intro hsub s hs hvis hres
          rw [List.foldl_cons]
          by_cases hp : p ∈ m.mandatory_activities
          · rw [if_pos hp]
            have hchain2 : List.Chain' (predEdge m) (p :: name :: gray) := by
              rw [List.chain'_cons]
              exact ⟨⟨hsub p (List.mem_cons_self p ps), hp⟩, hchain⟩
            have hfuel2 : cUM m s + (if p ∈ m.mandatory_activities then 1 else 2) ≤ f := by
              rw [if_pos hp]
              have hcs : cUM m s ≤ cUM m { st with visited := name :: st.visited } :=
                cUM_mono m hvis
              by_cases hm : name ∈ m.mandatory_activities
              · have hdec := cUM_insert m st hm hv
                rw [if_pos hm] at hfuel
                omega
              · have hdec := cUM_insert_notmand m st hm
                rw [if_neg hm] at hfuel
                omega
            obtain ⟨hi1, hi2, hi3, hi4, hi5⟩ := ih p s (name :: gray) hchain2 hfuel2 hs
            have hres2 : ∃ app, (visit m f p s).result = st.result ++ app := by
              obtain ⟨app0, h0⟩ := hres
              obtain ⟨app1, h1⟩ := hi3
              exact ⟨app0 ++ app1, by rw [h1, h0, List.append_assoc]⟩
            obtain ⟨hf1, hf2, hf3, hf4⟩ := ihp
              (fun q hq => hsub q (List.mem_cons_of_mem p hq))
              (visit m f p s) hi1 (fun x hx => hi2 x (hvis x hx)) hres2
            refine ⟨hf1, fun x hx => hf2 x (hi2 x hx), hf3, ?_⟩
            intro q hq hqm
            rcases List.mem_cons.mp hq with rfl | hq
            · exact hf2 q hi4
            · exact hf4 q hq hqm
          · rw [if_neg hp]
            obtain ⟨hf1, hf2, hf3, hf4⟩ := ihp
              (fun q hq => hsub q (List.mem_cons_of_mem p hq)) s hs hvis hres
            refine ⟨hf1, hf2, hf3, ?_⟩
            intro q hq hqm
            rcases List.mem_cons.mp hq with rfl | hq
            · exact absurd hqm hp
            · exact hf4 q hq hqm
      obtain ⟨hinv2, hmono2, hresx, hpvis⟩ := hfold
        (get_valid_previous_activities m name) (fun p hp => hp)
        { st with visited := name :: st.visited } hinv1 (fun x hx => hx)
        ⟨[], (List.append_nil _).symm⟩
      have hnamev : name ∈ ((get_valid_previous_activities m name).foldl
          (fun s p => if p ∈ m.mandatory_activities then visit m f p s else s)
          { st with visited := name :: st.visited }).visited :=
        hmono2 name (List.mem_cons_self _ _)
      by_cases hm : name ∈ m.mandatory_activities
      · rw [if_pos hm]
        have hnores := hinv2.gray_res name (List.mem_cons_self _ _)
        obtain ⟨app2, happ2⟩ := hresx
        refine ⟨?_, ?_, ?_, ?_, ?_⟩
        · refine { nodup := ?_, res_mand := ?_, res_vis := ?_, gray_vis := ?_,
                   gray_res := ?_, black := ?_, topo := ?_ }
          ·
            rw [List.nodup_append]
            refine ⟨hinv2.nodup, List.nodup_singleton _, ?_⟩
            intro a ha hb
            rw [List.mem_singleton] at hb
            subst hb
            exact hnores ha
          ·
            intro n hn
            rcases List.mem_append.mp hn with hn | hn
            · exact hinv2.res_mand n hn
            · rw [List.mem_singleton] at hn
              subst hn
              exact hm
          ·
            intro n hn
            rcases List.mem_append.mp hn with hn | hn
            · exact hinv2.res_vis n hn
            · rw [List.mem_singleton] at hn
              subst hn
              exact hnamev
          ·
            intro g hg
            exact hinv2.gray_vis g (List.mem_cons_of_mem _ hg)
          ·
            intro g hg hmem
            rcases List.mem_append.mp hmem with hmem | hmem
            · exact hinv2.gray_res g (List.mem_cons_of_mem _ hg) hmem
            · rw [List.mem_singleton] at hmem
              subst hmem
              exact hv (hinv.gray_vis g hg)
          ·
            intro x hxm hxv
            rcases hinv2.black x hxm hxv with h | h
            · exact Or.inl (List.mem_append_left _ h)
            · rcases List.mem_cons.mp h with rfl | h
              · exact Or.inl (List.mem_append_right _ (List.mem_singleton.mpr rfl))
              · exact Or.inr h
          ·
            intro l1 n l2 hsplit p hp
            rcases append_singleton_split hsplit with ⟨rfl, rfl, rfl⟩ | ⟨l2', rfl, hin⟩
            · have hpv : p ∈ ((get_valid_previous_activities m n).foldl
                  (fun s p => if p ∈ m.mandatory_activities then visit m f p s else s)
                  { st with visited := n :: st.visited }).visited :=
                hpvis p hp.1 hp.2
              rcases hinv2.black p hp.2 hpv with hr | hng
              · exact Or.inl hr
              · rcases List.mem_cons.mp hng with rfl | hg
                · exact absurd (Relation.TransGen.single hp) (hacyc p)
                · exact Or.inr ⟨hg, chain_transGen hchain p hg⟩
            · rcases hinv2.topo l1 n l2' hin p hp with hl | ⟨hng, ht⟩
              · exact Or.inl hl
              · rcases List.mem_cons.mp hng with rfl | hg
                · exact absurd (Relation.TransGen.tail ht hp) (hacyc n)
                · exact Or.inr ⟨hg, ht⟩
        · intro x hx
          exact hmono2 x (List.mem_cons_of_mem _ hx)
        · refine ⟨app2 ++ [name], ?_⟩
          show ((get_valid_previous_activities m name).foldl
            (fun s p => if p ∈ m.mandatory_activities then visit m f p s else s)
            { st with visited := name :: st.visited }).result ++ [name] = _
          rw [happ2, List.append_assoc]
        · exact hnamev
        · intro _
          exact List.mem_append_right _ (List.mem_singleton.mpr rfl)
      · rw [if_neg hm]
        refine ⟨?_, fun x hx => hmono2 x (List.mem_cons_of_mem _ hx), hresx,
          hnamev, fun hmand => absurd hmand hm⟩
        refine { nodup := ?_, res_mand := ?_, res_vis := ?_, gray_vis := ?_,
                 gray_res := ?_, black := ?_, topo := ?_ }
        · exact hinv2.nodup
        · exact hinv2.res_mand
        · exact hinv2.res_vis
        ·
          intro g hg
          exact hinv2.gray_vis g (List.mem_cons_of_mem _ hg)
        ·
          intro g hg
          exact hinv2.gray_res g (List.mem_cons_of_mem _ hg)
        ·
          intro x hxm hxv
          rcases hinv2.black x hxm hxv with h | h
          · exact Or.inl h
          · rcases List.mem_cons.mp h with rfl | h
            · exact absurd hxm hm
            · exact Or.inr h
        ·
          intro l1 n l2 hsplit p hp
          rcases hinv2.topo l1 n l2 hsplit p hp with h | ⟨hg, ht⟩
          · exact Or.inl h
          · rcases List.mem_cons.mp hg with rfl | hg
            · exact absurd hp.2 hm
            · exact Or.inr ⟨hg, ht⟩

theorem visitInv_empty (m : ProcessModel) : VisitInv m {} [] :=
  { nodup := List.nodup_nil
    res_mand := fun n hn => absurd hn (List.not_mem_nil n)
    res_vis := fun n hn => absurd hn (List.not_mem_nil n)
    gray_vis := fun g hg => absurd hg (List.not_mem_nil g)
    gray_res := fun g hg => absurd hg (List.not_mem_nil g)
    black := fun x _ hxv => absurd hxv (List.not_mem_nil x)
    topo := by
      intro l1 n l2 hsplit
      exact absurd hsplit.symm (List.append_ne_nil_of_right_ne_nil l1 (List.cons_ne_nil n l2)) }

theorem foldl_visit_inv (m : ProcessModel) (hacyc : MandAcyclic m) (ends : List String) :
    ∀ st : VisitState, VisitInv m st [] →
      VisitInv m (ends.foldl
        (fun st e => visit m (m.mandatory_activities.length + 2) e st) st) [] := by
  induction ends with
  | nil =>
    intro st h
    exact h
  | cons e ends ih =>
    intro st h
    rw [List.foldl_cons]
    apply ih
    have hfuel : cUM m st + (if e ∈ m.mandatory_activities then 1 else 2) ≤
        m.mandatory_activities.length + 2 := by
      have := cUM_le m st
      by_cases hm : e ∈ m.mandatory_activities
      · rw [if_pos hm]
        omega
      · rw [if_neg hm]
        omega
    exact (visit_spec m hacyc _ e st [] (List.chain'_singleton e) hfuel h).1

theorem foldl_dictSet_fresh (ps : List (Nat × String)) :
    ∀ d : List (String × Nat),
      (∀ p ∈ ps, d.lookup p.2 = none) →
      (ps.map Prod.snd).Nodup →
      ps.foldl (fun acc q => dictSet acc q.2 q.1) d = d ++ ps.map (fun q => (q.2, q.1)) := by
  induction ps with
  | nil =>
    intro d _ _
    simp
  | cons q ps ih =>
    intro d hd hnd
    rw [List.map_cons, List.nodup_cons] at hnd
    rw [List.foldl_cons]
    have h1 : dictSet d q.2 q.1 = d ++ [(q.2, q.1)] := by
      unfold dictSet
      rw [if_neg (by rw [hd q (List.mem_cons_self q ps)]; simp)]
    rw [h1]
    have hfresh : ∀ p ∈ ps, (d ++ [(q.2, q.1)]).lookup p.2 = none := by
      intro p hp
      rw [lookup_append, hd p (List.mem_cons_of_mem q hp)]
      have hne : (p.2 == q.2) = false :=
        beq_false_of_ne (fun he => hnd.1 (he ▸ List.mem_map_of_mem Prod.snd hp))
      simp [List.lookup_cons, hne]
    rw [ih (d ++ [(q.2, q.1)]) hfresh hnd.2]
    simp

theorem lookup_enum_swap :
    ∀ seq : List String, seq.Nodup → ∀ (k idx : Nat) (n : String),
      seq.get? idx = some n →
      ((List.enumFrom k seq).map (fun q => (q.2, q.1))).lookup n = some (k + idx) := by
  intro seq
  induction seq with
  | nil =>
    intro _ k idx n h
    simp at h
  | cons a seq ih =>
    intro hnd k idx n h
    rw [List.nodup_cons] at hnd
    cases idx with
    | zero =>
      injection h with h
      subst h
      show List.lookup a (((k, a) :: List.enumFrom (k + 1) seq).map
        (fun q => (q.2, q.1))) = some (k + 0)
      simp [List.lookup_cons]
    | succ j =>
      have h' : seq.get? j = some n := h
      have hn : n ∈ seq := List.get?_mem h'
      have hne : (n == a) = false := beq_false_of_ne (fun he => hnd.1 (he ▸ hn))
      show List.lookup n (((k, a) :: List.enumFrom (k + 1) seq).map
        (fun q => (q.2, q.1))) = some (k + (j + 1))
      rw [List.map_cons, List.lookup_cons]
      simp only [hne]
      rw [ih hnd.2 (k + 1) j n h']
      congr 1
      omega

/-! ### C3 -/

/-- C3: for a model whose mandatory-activity subgraph is acyclic,
`get_expected_sequence` lists mandatory activities, without repetition, in
an order in which every entry comes after each of its mandatory
predecessors that appears in the list, and `get_dependency_order` maps each
listed name to its index in that list. -/
theorem get_expected_sequence_topo_spec (m : ProcessModel) (hacyc : MandAcyclic m) :
    (∀ n ∈ get_expected_sequence m, n ∈ m.mandatory_activities) ∧
    (get_expected_sequence m).Nodup ∧
    (∀ l1 n l2, get_expected_sequence m = l1 ++ n :: l2 →
      ∀ p, predEdge m p n → p ∈ get_expected_sequence m → p ∈ l1) ∧
    (∀ idx n, (get_expected_sequence m).get? idx = some n →
      (get_dependency_order m).lookup n = some idx) := by
  have hinvf : VisitInv m (m.end_activities.foldl
      (fun st e => visit m (m.mandatory_activities.length + 2) e st) {}) [] :=
    foldl_visit_inv m hacyc m.end_activities {} (visitInv_empty m)
  have hseq : get_expected_sequence m = (m.end_activities.foldl
      (fun st e => visit m (m.mandatory_activities.length + 2) e st)
      {}).result := rfl
  have hnd : (get_expected_sequence m).Nodup := by
    rw [hseq]
    exact hinvf.nodup
  refine ⟨?_, hnd, ?_, ?_⟩
  · intro n hn
    exact hinvf.res_mand n (hseq ▸ hn)
  · intro l1 n l2 hsplit p hp _
    rcases hinvf.topo l1 n l2 (by rw [← hseq]; exact hsplit) p hp with h | ⟨hg, -⟩
    · exact h
    · exact absurd hg (List.not_mem_nil p)
  · intro idx n hget
    show ((get_expected_sequence m).enum.foldl
      (fun d q => dictSet d q.2 q.1) []).lookup n = some idx
    rw [foldl_dictSet_fresh (get_expected_sequence m).enum []
      (fun p _ => rfl) (by rw [List.enum_map_snd]; exact hnd)]
    rw [List.nil_append, List.enum_eq_enumFrom]
    have := lookup_enum_swap (get_expected_sequence m) hnd 0 idx n hget
    simpa using this

theorem wModel_predEdge {p n : String} (h : predEdge wModel p n) :
    p = "A" ∧ n = "B" := by
  obtain ⟨hmem, -⟩ := h
  unfold get_valid_previous_activities at hmem
  rw [show wModel.incoming = [("A", []), ("B", ["A"])] from rfl] at hmem
  by_cases hB : n = "B"
  · subst hB
    rw [show List.lookup "B" [("A", ([] : List String)), ("B", ["A"])] =
      some ["A"] from rfl] at hmem
    simp at hmem
    exact ⟨hmem, rfl⟩
  · exfalso
    by_cases hA : n = "A"
    · subst hA
      rw [show List.lookup "A" [("A", ([] : List String)), ("B", ["A"])] =
        some [] from rfl] at hmem
      simp at hmem
    · have h1 : (n == "A") = false := beq_false_of_ne hA
      have h2 : (n == "B") = false := beq_false_of_ne hB
      simp [List.lookup_cons, h1, h2] at hmem

theorem wModel_acyclic : MandAcyclic wModel := by
  intro x hT
  have hAB : ∀ a b : String, Relation.TransGen (predEdge wModel) a b →
      a = "A" ∧ b = "B" := by
    intro a b hT
    induction hT with
    | single h => exact wModel_predEdge h
    | tail hT2 h ihab =>
      exact absurd (ihab.2.symm.trans (wModel_predEdge h).1) (by decide)
  obtain ⟨h1, h2⟩ := hAB x x hT
  rw [h1] at h2
  exact absurd h2 (by decide)

/-- Witness for C3 at the concrete acyclic model `wModel`. -/
theorem get_expected_sequence_topo_spec_witness :
    MandAcyclic wModel ∧
    (∀ n ∈ get_expected_sequence wModel, n ∈ wModel.mandatory_activities) :=
  ⟨wModel_acyclic, (get_expected_sequence_topo_spec wModel wModel_acyclic).1⟩

end SapConformance
